import Mathlib

/-!
Verification of the SnackBuddy deals pipeline
(`build_deals_json_from_csv.py` and `generate_deals_page.py`).

The Python source is embedded shallowly:

* CSV cells are modelled by `Cell`: `num q` is a value on which Python
  `float()` succeeds (floats and numeric strings, represented as an exact
  rational), `bad` is a present value on which `float()` raises, and `nan`
  is the pandas missing-value marker (for which `pd.isna` is true).
  IEEE `NaN` itself is not representable in `ℚ`; rows whose *price* cell is
  the NaN marker (on which `float()` returns NaN and the row is kept with a
  NaN price) are outside this embedding, and no theorem below quantifies
  over them.
* Python `round(x, n)` is modelled as exact rational rounding to `n`
  decimal places (half upward; the half-to-even tie rule of binary floats
  is irrelevant to every statement proved here).
* Python strings are modelled as `String` / `List Char`; `str.strip()` is
  modelled with `Char.isWhitespace`, and `str.lower()` with `Char.toLower`
  (the ASCII case map).
* `dict` / `pandas` row access `row.get(k)` is modelled by `Option`-typed
  fields (`none` = key absent / value `None`), and Python `try/except`
  blocks become `Option` case analysis.
* Python's stable `sorted` / `list.sort` is modelled by
  `List.insertionSort`, which is stable for a total preorder; a stable
  sort's output is uniquely determined by the key, so this is faithful.
-/

/-! ### Character-list string utilities -/

/-- Whitespace-trim of a character list (`str.strip()`). -/
def trimL (l : List Char) : List Char :=
  ((l.dropWhile Char.isWhitespace).reverse.dropWhile Char.isWhitespace).reverse

/-- ASCII lower-casing of a character list (`str.lower()`). -/
def toLowerL (l : List Char) : List Char :=
  l.map Char.toLower

/-- `str.strip()` on `String`.  (`String.trim` itself is defined through
`Substring` helpers that the kernel cannot evaluate, so the model works on
the underlying character list.) -/
def trimS (s : String) : String :=
  ⟨trimL s.data⟩

/-- `str.lower()` on `String` (same remark as `trimS`). -/
def toLowerS (s : String) : String :=
  ⟨toLowerL s.data⟩

/-- `s.startswith(pre)` on `String` (same remark as `trimS`). -/
def startsWithS (s pre : String) : Bool :=
  pre.data.isPrefixOf s.data

/-- First index at which `pat` occurs in `s` (`str.find`), `none` when `pat`
is not a substring (`pat in s` is false). -/
def findSub (pat : List Char) : List Char → Option Nat
  | [] => if pat = [] then some 0 else none
  | c :: cs => if pat.isPrefixOf (c :: cs) then some 0 else (findSub pat cs).map (· + 1)

/-- `pat in s` for Python strings. -/
def containsSub (pat s : List Char) : Bool :=
  (findSub pat s).isSome

/-- Helper for `splitWs`: `acc` holds the characters of the word currently
being read, in reverse. -/
def splitWsAux : List Char → List Char → List (List Char)
  | [], acc => if acc = [] then [] else [acc.reverse]
  | c :: cs, acc =>
    if c.isWhitespace then
      (if acc = [] then [] else [acc.reverse]) ++ splitWsAux cs []
    else splitWsAux cs (c :: acc)

/-- Whitespace-splitting of a character list (`str.split()` with no
argument: runs of whitespace separate words, empties are discarded). -/
def splitWs (l : List Char) : List (List Char) :=
  splitWsAux l []

/-- `" ".join(words)`. -/
def joinWords (ws : List (List Char)) : List Char :=
  List.intercalate [' '] ws

/-- Helper for the trailing pack-size regex `\s*\([^)]+\)\s*$`: given the
characters *before* the final `)` (trailing whitespace already removed),
return the prefix that precedes the leftmost `(` that is followed by at
least one character and by no further `)`; `none` when the regex does not
match. -/
def parenCut : List Char → Option (List Char)
  | [] => none
  | c :: cs =>
    if c = '(' ∧ ¬ cs.contains ')' ∧ cs ≠ [] then some []
    else (parenCut cs).map (c :: ·)

/-- `re.sub(r'\s*\([^)]+\)\s*$', '', s).strip()` — removal of one trailing
parenthetical pack-size annotation followed by `str.strip()`, as performed
at the top of both name-extraction helpers.  (The caller's `.strip()` is
folded in because every use site applies it immediately.) -/
def stripPackL (s : List Char) : List Char :=
  match s.reverse.dropWhile Char.isWhitespace with
  | ')' :: revBody =>
    match parenCut revBody.reverse with
    | some pre => trimL pre
    | none => trimL s
  | _ => trimL s

/-! ### Name extraction (`generate_deals_page.py`) -/

/-- The `product_types` list shared by `extract_flavor_from_product_name`
and `extract_base_product_name`, in source order. -/
def product_types : List (List Char) :=
  ["protein bar".data, "protein chips".data, "energy drink".data, "bar".data,
   "chips".data, "cookies".data, "crackers".data, "drink".data,
   "beverage".data, "snack".data]

/-- `sorted(product_types, key=len, reverse=True)`: stable descending sort
by length, so longer phrases are attempted first. -/
def sortedTypes : List (List Char) :=
  List.insertionSort (fun a b => b.length ≤ a.length) product_types

/-- The phrase loop of `extract_flavor_from_product_name`: for each phrase
in order, if it occurs in the lowered name, take the text after its first
occurrence, strip it, and return it when non-empty; otherwise keep
looping. -/
def flavorLoop : List (List Char) → List Char → List Char → Option (List Char)
  | [], _, _ => none
  | p :: ps, low, part =>
    match findSub p low with
    | some i =>
      let fp := trimL (part.drop (i + p.length))
      if fp ≠ [] then some fp else flavorLoop ps low part
    | none => flavorLoop ps low part

/-- The phrase loop of `extract_base_product_name`: text up to and
including the first occurrence of the phrase, stripped, returned when
non-empty. -/
def baseLoop : List (List Char) → List Char → List Char → Option (List Char)
  | [], _, _ => none
  | p :: ps, low, part =>
    match findSub p low with
    | some i =>
      let bp := trimL (part.take (i + p.length))
      if bp ≠ [] then some bp else baseLoop ps low part
    | none => baseLoop ps low part

/-- `extract_flavor_from_product_name` on character lists. -/
def extract_flavor_from_product_name (name : List Char) : List Char :=
  if name = [] then []
  else
    let part := stripPackL name
    let low := toLowerL part
    match flavorLoop sortedTypes low part with
    | some f => f
    | none =>
      let ws := splitWs part
      if 3 ≤ ws.length then joinWords (ws.drop 1) else part

/-- `extract_base_product_name` on character lists. -/
def extract_base_product_name (name : List Char) : List Char :=
  if name = [] then []
  else
    let part := stripPackL name
    let low := toLowerL part
    match baseLoop sortedTypes low part with
    | some b => b
    | none =>
      let ws := splitWs part
      if 2 ≤ ws.length then joinWords (ws.take 2) else part

/-- `extract_brand_from_product_name`: the first whitespace-delimited token
of the (unstripped) name, `""` when there is none. -/
def extract_brand_from_product_name (name : List Char) : List Char :=
  if name = [] then []
  else
    match splitWs name with
    | [] => []
    | w :: _ => w

/-! ### CSV-layer values (`build_deals_json_from_csv.py`) -/

/-- One CSV cell as seen through `float()` / `pd.isna`; see the header
comment for the exact reading of each constructor. -/
inductive Cell : Type
  | nan : Cell
  | bad : Cell
  | num : ℚ → Cell
deriving DecidableEq

/-- Python `int()` truncation toward zero of a float value. -/
def truncQ (q : ℚ) : ℤ :=
  if 0 ≤ q then ⌊q⌋ else ⌈q⌉

/-- Python `round(x, 1)` on exact rationals (see header note on ties). -/
def round1 (q : ℚ) : ℚ :=
  (⌊q * 10 + 1 / 2⌋ : ℤ) / 10

/-- Python `round(x, 4)` on exact rationals. -/
def round4 (q : ℚ) : ℚ :=
  (⌊q * 10000 + 1 / 2⌋ : ℤ) / 10000

/-- One raw CSV row of `deals_today.csv`, with `Option` marking column
absence (`row.get` returning `None`). -/
structure CRow : Type where
  retailer : Option String := none
  section_ : Option String := none
  category : Option String := none
  brand : Option String := none
  product_name : Option String := none
  flavor : Option String := none
  image_url : Option String := none
  canonical_url : Option String := none
  availability_norm : Option String := none
  timestamp : Option String := none
  deal_strength : Option String := none
  pack_size : Option Cell := none
  price : Option Cell := none
  baseline : Option Cell := none
  pct_off : Option Cell := none
  deal_streak_days : Option Cell := none
  streak_days : Option Cell := none
  deal_streak : Option Cell := none
  days_on_deal : Option Cell := none
deriving DecidableEq

/-- `get_percent_off`: trust a numeric `pct_off` as-is (times 100, not
clamped); otherwise fall back to `(baseline - price) / baseline * 100`
floored at 0 when `baseline > 0` and `price <= baseline`; otherwise 0.
Every `float()` failure and every NaN lands in a catch-all branch exactly
as the `try/except` blocks do. -/
def get_percent_off (r : CRow) : ℚ :=
  match r.pct_off with
  | some (Cell.num q) => q * 100
  | _ =>
    match r.baseline, r.price with
    | some (Cell.num b), some (Cell.num p) =>
      if 0 < b ∧ p ≤ b then max 0 ((b - p) / b * 100) else 0
    | _, _ => 0

/-- One probe step list for `get_streak_days`: the cells of the four alias
columns in source order (`none` = column absent, so the loop moves on). -/
def streakCells (r : CRow) : List (Option Cell) :=
  [r.deal_streak_days, r.streak_days, r.deal_streak, r.days_on_deal]

/-- The alias loop of `get_streak_days`: an absent column is skipped; a
present NaN or non-coercible value returns `None` immediately; a numeric
value with `int(val) >= 1` is returned; a numeric value below 1 falls
through to the next alias. -/
def streakLoop : List (Option Cell) → Option ℤ
  | [] => none
  | none :: rest => streakLoop rest
  | some (Cell.num q) :: rest =>
    if 1 ≤ truncQ q then some (truncQ q) else streakLoop rest
  | some _ :: _ => none

/-- `get_streak_days`. -/
def get_streak_days (r : CRow) : Option ℤ :=
  streakLoop (streakCells r)

/-- `pat in s` on `String`s. -/
def containsSubS (pat s : String) : Bool :=
  containsSub pat.data s.data

/-- `get_unit_label`: the quantity-pill `(count, unit)` pair. -/
def get_unit_label (r : CRow) : Option ℤ × Option String :=
  match r.pack_size with
  | some (Cell.num q) =>
    let count := truncQ q
    let category := toLowerS (r.category.getD "")
    let sec := toLowerS (r.section_.getD "")
    let unit :=
      if containsSubS "bar" category ∨ containsSubS "bar" sec then
        if count = 1 then "bar" else "bars"
      else "ct"
    (some count, some unit)
  | _ => (none, none)

/-- `build_product_name`: brand (unless the base name already starts with
it case-insensitively), base name, flavor, optional `( _ ct)` suffix. -/
def build_product_name (r : CRow) : String :=
  let brand_str := trimS (r.brand.getD "")
  let base_str := trimS (r.product_name.getD "")
  let parts₁ :=
    if brand_str ≠ "" ∧ ¬ startsWithS (toLowerS base_str) (toLowerS brand_str)
    then [brand_str] else []
  let parts₂ := if base_str ≠ "" then [base_str] else []
  let parts₃ :=
    match r.flavor with
    | some f => if trimS f ≠ "" then [trimS f] else []
    | none => []
  let parts₄ :=
    match r.pack_size with
    | some (Cell.num q) => if q ≠ 0 then [s!"({truncQ q}ct)"] else []
    | _ => []
  let parts := parts₁ ++ parts₂ ++ parts₃ ++ parts₄
  if parts = [] then "Unknown product" else String.intercalate " " parts

/-- One entry of `deals_today.json` as written by `main` of
`build_deals_json_from_csv.py`. -/
structure Deal : Type where
  product_name : String
  retailer : String
  section_ : String
  category : String
  old_price : Option ℚ
  new_price : ℚ
  percent_off : ℚ
  image_url : String
  retailer_url : String
  availability : String
  verified_at : String
  deal_strength : String
  pack_count : Option ℤ
  pack_unit : Option String
  streak_days : Option ℤ
deriving DecidableEq

/-- The per-row body of `main`: `none` when `float(row.get("price"))`
raises (absent column or non-coercible value) and the row is skipped,
otherwise the assembled deal dictionary. -/
def buildDeal (r : CRow) : Option Deal :=
  match r.price with
  | some (Cell.num p) =>
    some
      { product_name := build_product_name r
        retailer := r.retailer.getD ""
        section_ := r.section_.getD ""
        category := r.category.getD ""
        old_price :=
          match r.baseline with
          | some (Cell.num b) => some b
          | _ => none
        new_price := p
        percent_off := round1 (get_percent_off r)
        image_url := r.image_url.getD ""
        retailer_url := r.canonical_url.getD ""
        availability := r.availability_norm.getD ""
        verified_at := r.timestamp.getD ""
        deal_strength := r.deal_strength.getD ""
        pack_count := (get_unit_label r).1
        pack_unit := (get_unit_label r).2
        streak_days := get_streak_days r }
  | _ => none

/-- The whole loop of `main`: rows without a coercible price contribute
nothing, all others yield exactly one deal, in input order. -/
def buildDeals (rows : List CRow) : List Deal :=
  rows.filterMap buildDeal

/-! ### Page-layer rows (`generate_deals_page.py`) -/

/-- One deal dictionary as consumed by `group_deals` / `build_page_html`
(an entry of `deals_today.json`, possibly with the extra `brand` /
`flavor` / `canonical_url` keys that the grouping code probes). -/
structure PRow : Type where
  retailer : Option String := none
  section_ : Option String := none
  category : Option String := none
  brand : Option String := none
  product_name : Option String := none
  flavor : Option String := none
  pack_unit : Option String := none
  retailer_url : Option String := none
  canonical_url : Option String := none
  image_url : Option String := none
  availability : Option String := none
  verified_at : Option String := none
  deal_strength : Option String := none
  pack_count : Option ℤ := none
  new_price : Option ℚ := none
  old_price : Option ℚ := none
  percent_off : Option ℚ := none
  streak_days : Option ℤ := none
deriving DecidableEq

/-- `_norm_str`: `(val or "").strip()`. -/
def norm_str (o : Option String) : String :=
  trimS (o.getD "")

/-- `_norm_float_key`: `round(float(val), 4)`, `None` propagated. -/
def norm_float_key (o : Option ℚ) : Option ℚ :=
  o.map round4

/-- `extract_flavor_from_product_name` on `String`. -/
def extractFlavorS (s : String) : String :=
  ⟨extract_flavor_from_product_name s.data⟩

/-- `extract_brand_from_product_name` on `String`. -/
def extractBrandS (s : String) : String :=
  ⟨extract_brand_from_product_name s.data⟩

/-- The composite grouping key of `group_deals` (tuple `key` in the
source): lower-cased trimmed strings plus 4-decimal-rounded price and
baseline (`None` kept as `none`). -/
structure GKey : Type where
  retailer : String
  section_ : String
  brand : String
  base_product : String
  pack_size : String
  price_key : Option ℚ
  baseline_key : Option ℚ
deriving DecidableEq

/-- The grouping key computed for one row inside the `group_deals` loop. -/
def groupKey (r : PRow) : GKey :=
  let product_name := norm_str r.product_name
  let brand :=
    let b := norm_str r.brand
    if b ≠ "" then b else extractBrandS product_name
  let pack_unit := norm_str r.pack_unit
  let pack_size :=
    match r.pack_count with
    | some n => if n ≠ 0 ∧ pack_unit ≠ "" then s!"{n}{pack_unit}" else ""
    | none => ""
  { retailer := toLowerS (norm_str r.retailer)
    section_ := toLowerS (norm_str r.section_)
    brand := toLowerS brand
    base_product := toLowerS product_name
    pack_size := toLowerS pack_size
    price_key := norm_float_key r.new_price
    baseline_key := norm_float_key r.old_price }

/-- One `{name, url}` entry of a family's `flavor_data`. -/
structure FlavorPair : Type where
  name : String
  url : String
deriving DecidableEq

/-- The flavor name used for one row: the structured `flavor` field when
non-empty, else heuristic extraction from the product name. -/
def flavorOf (r : PRow) : String :=
  let product_name := norm_str r.product_name
  let f := norm_str r.flavor
  if f ≠ "" then f else extractFlavorS product_name

/-- `row.get("retailer_url") or row.get("canonical_url") or ""`, then
`_norm_str`: the first *truthy* (present and non-empty) raw value is
chosen before trimming. -/
def urlOf (r : PRow) : String :=
  trimS (match r.retailer_url with
    | some s => if s ≠ "" then s else (r.canonical_url.getD "")
    | none => r.canonical_url.getD "")

/-- The flavor-append step of the `group_deals` loop: the `(name, url)`
pair is appended iff the name is not already present case-insensitively
and both strings are non-empty. -/
def appendPair (fd : List FlavorPair) (r : PRow) : List FlavorPair :=
  let flavor_name := flavorOf r
  let retailer_url := urlOf r
  if (¬ fd.any fun f => toLowerS f.name == toLowerS flavor_name) ∧
      flavor_name ≠ "" ∧ retailer_url ≠ ""
  then fd ++ [⟨flavor_name, retailer_url⟩]
  else fd

/-- A group accumulator: the first-seen row (the shallow `dict(row)` copy
that supplies every non-flavor field) plus the flavor list built so far.
(The dict's `group_size` key always equals `flavor_data`'s length, so it
is reconstructed at finalization.) -/
structure GAcc : Type where
  rep : PRow
  flavor_data : List FlavorPair
deriving DecidableEq

/-- `g["flavor_data"].append(...)` guarded as in the source. -/
def appendFlavor (g : GAcc) (r : PRow) : GAcc :=
  { g with flavor_data := appendPair g.flavor_data r }

/-- Ordered-dictionary lookup on the accumulator association list. -/
def findA : List (GKey × GAcc) → GKey → Option GAcc
  | [], _ => none
  | kv :: rest, k => if kv.1 = k then some kv.2 else findA rest k

/-- In-place value update of the (unique) entry with the given key,
preserving insertion order, as mutating `groups[key]` does. -/
def updateA : List (GKey × GAcc) → GKey → GAcc → List (GKey × GAcc)
  | [], _, _ => []
  | kv :: rest, k, v => if kv.1 = k then (k, v) :: rest else kv :: updateA rest k v

/-- One iteration of the `for row in rows` loop of `group_deals`: a fresh
group is appended at the end (Python dicts preserve insertion order), an
existing one is updated in place; either way the row's flavor pair is
offered to the group. -/
def groupStep (m : List (GKey × GAcc)) (r : PRow) : List (GKey × GAcc) :=
  let k := groupKey r
  match findA m k with
  | none => m ++ [(k, appendFlavor ⟨r, []⟩ r)]
  | some g => updateA m k (appendFlavor g r)

/-- Strict lexicographic comparison of character lists by code point —
exactly Python's `<` on strings. -/
def lexLt : List Char → List Char → Bool
  | _, [] => false
  | [], _ :: _ => true
  | a :: as, b :: bs => if a < b then true else if b < a then false else lexLt as bs

/-- The preorder realized by Python's stable sort with key
`x["name"].lower()`: `a` precedes `b` unless `b`'s key is strictly
smaller. -/
def flavorLe (a b : FlavorPair) : Prop :=
  lexLt (toLowerL b.name.data) (toLowerL a.name.data) = false

instance : DecidableRel flavorLe :=
  fun _ _ => inferInstanceAs (Decidable (_ = false))

/-- `flavors.sort(key=lambda x: x["name"].lower())`: Python's stable sort,
modelled by insertion sort on the same total preorder. -/
def sortFlavors (fd : List FlavorPair) : List FlavorPair :=
  List.insertionSort flavorLe fd

/-- A finalized deal family as returned by `group_deals`. -/
structure Family : Type where
  rep : PRow
  flavor_data : List FlavorPair
  group_size : ℕ
  flavor_sample : List FlavorPair
  flavor_extra_count : ℤ
  flavor_extra_data : List FlavorPair
deriving DecidableEq

/-- The finalization pass of `group_deals`, transcribed branch for branch:
the sort and the 2-element sample are only computed when the flavor list
is non-empty, `flavor_extra_count` is `max(0, len - len(sample))`, and
`flavor_extra_data` is `flavors[2:] if len(flavors) > 2 else []`. -/
def source_finalize (g : GAcc) : Family :=
  let fl := if g.flavor_data = [] then [] else sortFlavors g.flavor_data
  { rep := g.rep
    flavor_data := fl
    group_size := g.flavor_data.length
    flavor_sample := if g.flavor_data = [] then [] else fl.take 2
    flavor_extra_count :=
      if g.flavor_data = [] then 0
      else max 0 ((fl.length : ℤ) - ((fl.take 2).length : ℤ))
    flavor_extra_data := if 2 < fl.length then fl.drop 2 else [] }

/-- `group_deals`. -/
def group_deals (rows : List PRow) : List Family :=
  (rows.foldl groupStep []).map fun kv => source_finalize kv.2

/-! #### Specification-side grouping, following the spec text -/

/-- First-occurrence deduplication (the order in which a Python dict
enumerates its keys). -/
def firstDedup {α : Type} [DecidableEq α] : List α → List α
  | [] => []
  | k :: ks => k :: firstDedup (ks.filter fun x => x ≠ k)
termination_by l => l.length
decreasing_by
  simp only [List.length_cons]
  exact Nat.lt_succ_of_le (List.length_filter_le _ _)

/-- Specification-side family for one key class: the first-seen row is the
representative and every row of the class offers its flavor pair in input
order. -/
def specFam (rs : List PRow) : GAcc :=
  { rep := rs.headD {}, flavor_data := rs.foldl appendPair [] }

/-- Specification-side finalization: sort the flavor list alphabetically
case-insensitively, the sample is the first two entries and the overflow
is everything after them. -/
def spec_finalize (g : GAcc) : Family :=
  let fl := sortFlavors g.flavor_data
  { rep := g.rep
    flavor_data := fl
    group_size := fl.length
    flavor_sample := fl.take 2
    flavor_extra_count := ((fl.drop 2).length : ℤ)
    flavor_extra_data := fl.drop 2 }

/-- `group_deals` as the spec describes it: every set of rows sharing one
composite key folds into exactly one family, in first-seen key order. -/
def spec_group_deals (rows : List PRow) : List Family :=
  (firstDedup (rows.map groupKey)).map fun k =>
    spec_finalize (specFam (rows.filter fun r => groupKey r = k))

/-! ### Badges and sorting (`generate_deals_page.py`) -/

/-- The raw JSON value found under a deal's `percent_off` key:
a number, JSON `null` (Python `None`, on which `float()` raises), or a
present value on which `float()` raises (e.g. a non-numeric string). -/
inductive PctVal : Type
  | pnum : ℚ → PctVal
  | pnull : PctVal
  | pbad : PctVal
deriving DecidableEq

/-- `get_badge` reads exactly one key of its argument,
`float(deal.get("percent_off", 0.0))` guarded by `try/except` with
fallback `0.0`; it is embedded as a function of that field.  The tier
chain tests `>= 25`, `>= 20`, `>= 10`, `>= 0` in order and returns the
empty pair for negative values. -/
def get_badge (v : Option PctVal) : String × String :=
  let percent_off : ℚ :=
    match v with
    | some (PctVal.pnum q) => q
    | _ => 0
  if 25 ≤ percent_off then ("💎 Diamond Deal", "badge badge-elite")
  else if 20 ≤ percent_off then ("🔥 Fire Deal", "badge badge-strong")
  else if 10 ≤ percent_off then ("💪 Strong Deal", "badge badge-protein")
  else if 0 ≤ percent_off then ("🏷️ On Sale", "badge badge-everyday")
  else ("", "")

/-- The lexicographic sort-key codomain of `build_page_html`'s `sort_key`:
`(retailer.lower(), category.lower(), -percent_off, new_price)` compared
as a Python tuple. -/
abbrev SKey : Type := Lex (String × Lex (String × Lex (ℚ × ℚ)))

/-- `sort_key(d)` of `build_page_html` (a grouped family exposes its
representative's fields at top level; `or 0.0` maps `None` — and `0.0`
itself — to `0.0`). -/
def sort_key (f : Family) : SKey :=
  toLex (toLowerS (f.rep.retailer.getD ""),
    toLex (toLowerS (f.rep.category.getD ""),
      toLex (-(f.rep.percent_off.getD 0), f.rep.new_price.getD 0)))

/-- The total preorder realized by `sorted(grouped_deals, key=sort_key)`. -/
def sortLe (a b : Family) : Prop :=
  sort_key a ≤ sort_key b

instance : DecidableRel sortLe :=
  fun a b => inferInstanceAs (Decidable (sort_key a ≤ sort_key b))

instance : IsTotal Family sortLe :=
  ⟨fun a b => le_total (sort_key a) (sort_key b)⟩

instance : IsTrans Family sortLe :=
  ⟨fun _ _ _ h₁ h₂ => le_trans h₁ h₂⟩

/-- `sorted(grouped_deals, key=sort_key)`: Python's stable sort, modelled
by insertion sort over the same preorder. -/
def sort_deals (fams : List Family) : List Family :=
  List.insertionSort sortLe fams

/-- The family-list production of `build_page_html`: group, then sort. -/
def build_page_families (rows : List PRow) : List Family :=
  sort_deals (group_deals rows)

/-- The claim's spelling of the display order on two families: ascending
case-insensitive retailer, then ascending case-insensitive category, then
descending `percent_off`, then ascending price. -/
def displayLe (a b : Family) : Prop :=
  let ra := toLowerS (a.rep.retailer.getD "")
  let rb := toLowerS (b.rep.retailer.getD "")
  let ca := toLowerS (a.rep.category.getD "")
  let cb := toLowerS (b.rep.category.getD "")
  let pa := a.rep.percent_off.getD 0
  let pb := b.rep.percent_off.getD 0
  let qa := a.rep.new_price.getD 0
  let qb := b.rep.new_price.getD 0
  ra < rb ∨ (ra = rb ∧ (ca < cb ∨ (ca = cb ∧ (pb < pa ∨ (pa = pb ∧ qa ≤ qb)))))

/-! ### The composed pipeline: CSV builder output fed to the page -/

/-- A deal dictionary written by `build_deals_json_from_csv.py` and read
back by `generate_deals_page.py`: every key the builder writes is present,
and the keys only the grouper probes (`brand`, `flavor`, `canonical_url`)
are absent. -/
def dealToRow (d : Deal) : PRow :=
  { retailer := some d.retailer
    section_ := some d.section_
    category := some d.category
    brand := none
    product_name := some d.product_name
    flavor := none
    pack_unit := d.pack_unit
    retailer_url := some d.retailer_url
    canonical_url := none
    image_url := some d.image_url
    availability := some d.availability
    verified_at := some d.verified_at
    deal_strength := some d.deal_strength
    pack_count := d.pack_count
    new_price := some d.new_price
    old_price := d.old_price
    percent_off := some d.percent_off
    streak_days := d.streak_days }

/-- CSV rows all the way to the grouped deal families of the page. -/
def pipeline_families (rows : List CRow) : List Family :=
  group_deals ((buildDeals rows).map dealToRow)

/-! ### Fixtures and specification-side definitions used by the theorems -/

/-- The row used in the C1/C2 counterexamples: a valid price together with
an explicit negative discount fraction `pct_off = -0.5`. -/
def negPctRow : CRow :=
  { price := some (Cell.num 10), pct_off := some (Cell.num (-1 / 2)) }

/-- The row of the spec's own first example (`pct_off_raw = 0.37`,
`price = 10`): the result is `37.0` regardless of baseline. -/
def specPctRow : CRow :=
  { price := some (Cell.num 10), pct_off := some (Cell.num (37 / 100)) }

/-- The row of the spec's fallback example (`baseline = 20`, `price = 15`,
no `pct_off`). -/
def fallbackRow : CRow :=
  { price := some (Cell.num 15), baseline := some (Cell.num 20) }

/-- The deal `main` assembles from `fallbackRow`: `percent_off = 25`. -/
def fallbackDeal : Deal :=
  { product_name := "Unknown product", retailer := "", section_ := "",
    category := "", old_price := some 20, new_price := 15,
    percent_off := 25, image_url := "", retailer_url := "",
    availability := "", verified_at := "", deal_strength := "",
    pack_count := none, pack_unit := none, streak_days := none }

/-- The claim's reading of `get_streak_days`: the *first present* alias
column alone determines the result — an int `≥ 1`, otherwise `null`. -/
def claim_streak_days (r : CRow) : Option ℤ :=
  match (streakCells r).findSome? id with
  | some (Cell.num q) => if 1 ≤ truncQ q then some (truncQ q) else none
  | _ => none

/-- A row whose first alias holds `0` and whose second alias holds `5`. -/
def zeroStreakRow : CRow :=
  { deal_streak_days := some (Cell.num 0), streak_days := some (Cell.num 5) }

/-- The per-alias decision of the amended policy: an absent column is
skipped, a present NaN or non-coercible value decides `null`, an int `≥ 1`
decides that int, and an int below `1` is skipped. -/
def streakDecision : Option Cell → Option (Option ℤ)
  | none => none
  | some (Cell.num q) => if 1 ≤ truncQ q then some (some (truncQ q)) else none
  | some _ => some none

/-- `get_streak_days` as the amended claim describes it: the first
*decisive* alias wins. -/
def amended_streak_days (r : CRow) : Option ℤ :=
  ((streakCells r).findSome? streakDecision).join

/-- The counterexample name for claim C6: two tokens, no product-type
phrase. -/
def fooXyz : List Char := "Foo Xyz".data

/-- The claim's "first matched phrase": scanning the longest-first phrase
list, the first occurrence index (and the phrase length) of the first
phrase contained in the lowered name. -/
def firstPhraseHit : List (List Char) → List Char → Option (ℕ × ℕ)
  | [], _ => none
  | p :: ps, low =>
    match findSub p low with
    | some i => some (i, p.length)
    | none => firstPhraseHit ps low

/-- The spec's worked name-extraction example. -/
def questName : List Char := "Quest Protein Chips Chili Lime (8ct)".data

/-- A row whose price column holds a value `float()` rejects. -/
def badPriceRow : CRow :=
  { price := some Cell.bad, retailer := some "walmart" }

/-- The association list the `group_deals` fold is claimed to build after
consuming a prefix `p` of the input: the distinct keys in first-seen
order, each mapped to the spec-side family of its rows. -/
def specAssoc (p : List PRow) : List (GKey × GAcc) :=
  (firstDedup (p.map groupKey)).map fun k =>
    (k, specFam (p.filter fun r => groupKey r = k))

/-- The three rows of the spec's grouping example: identical on every
grouping-key field, differing only in `flavor` (and URL), the third
repeating `"Cherry"` case-insensitively. -/
def cherryRow : PRow :=
  { retailer := some "Walmart", section_ := some "Food",
    category := some "chips", product_name := some "Quest Protein Chips",
    flavor := some "Cherry", retailer_url := some "https://w/1" }

def vanillaRow : PRow :=
  { retailer := some "Walmart", section_ := some "Food",
    category := some "chips", product_name := some "Quest Protein Chips",
    flavor := some "Vanilla", retailer_url := some "https://w/2" }

def cherryDupRow : PRow :=
  { retailer := some "Walmart", section_ := some "Food",
    category := some "chips", product_name := some "Quest Protein Chips",
    flavor := some "cherry", retailer_url := some "https://w/3" }

/-- The single family the three example rows must collapse to. -/
def cherryFamily : Family :=
  { rep := cherryRow,
    flavor_data := [⟨"Cherry", "https://w/1"⟩, ⟨"Vanilla", "https://w/2"⟩],
    group_size := 2,
    flavor_sample := [⟨"Cherry", "https://w/1"⟩, ⟨"Vanilla", "https://w/2"⟩],
    flavor_extra_count := 0,
    flavor_extra_data := [] }

/-! ### Helper lemmas: rounding and the discount policy -/

theorem round1_nonneg {q : ℚ} (h : 0 ≤ q) : 0 ≤ round1 q := by
  unfold round1
  have h0 : (0 : ℤ) ≤ ⌊q * 10 + 1 / 2⌋ := Int.floor_nonneg.mpr (by linarith)
  positivity

theorem round1_le_100 {q : ℚ} (h : q ≤ 100) : round1 q ≤ 100 := by
  unfold round1
  have h1 : ⌊q * 10 + 1 / 2⌋ < 1001 := by
    rw [Int.floor_lt]
    push_cast
    linarith
  have h2 : (⌊q * 10 + 1 / 2⌋ : ℚ) ≤ 1000 := by exact_mod_cast Int.lt_add_one_iff.mp h1
  linarith

theorem round1_of_intCast (n : ℤ) : round1 (n : ℚ) = n := by
  unfold round1
  have h : ⌊(n : ℚ) * 10 + 1 / 2⌋ = 10 * n := by
    rw [Int.floor_eq_iff]
    constructor
    · push_cast
      linarith
    · push_cast
      linarith
  rw [h]
  push_cast
  ring

theorem get_percent_off_num (r : CRow) {q : ℚ} (hq : r.pct_off = some (Cell.num q)) :
    get_percent_off r = q * 100 := by
  simp [get_percent_off, hq]

theorem get_percent_off_not_num (r : CRow) (hn : ∀ q : ℚ, r.pct_off ≠ some (Cell.num q)) :
    get_percent_off r =
      match r.baseline, r.price with
      | some (Cell.num b), some (Cell.num p) =>
        if 0 < b ∧ p ≤ b then max 0 ((b - p) / b * 100) else 0
      | _, _ => (0 : ℚ) := by
  unfold get_percent_off
  cases hpc : r.pct_off with
  | none => rfl
  | some c =>
    cases c with
    | nan => rfl
    | bad => rfl
    | num q => exact absurd hpc (hn q)

theorem get_percent_off_fallback (r : CRow) (hn : ∀ q : ℚ, r.pct_off ≠ some (Cell.num q))
    {b p : ℚ} (hb : r.baseline = some (Cell.num b)) (hp : r.price = some (Cell.num p))
    (h0 : 0 < b) (hpb : p ≤ b) :
    get_percent_off r = max 0 ((b - p) / b * 100) := by
  rw [get_percent_off_not_num r hn, hb, hp]
  exact if_pos ⟨h0, hpb⟩

theorem get_percent_off_zero (r : CRow) (hn : ∀ q : ℚ, r.pct_off ≠ some (Cell.num q))
    (hno : ∀ b p : ℚ, ¬ (r.baseline = some (Cell.num b) ∧ r.price = some (Cell.num p) ∧
      0 < b ∧ p ≤ b)) :
    get_percent_off r = 0 := by
  rw [get_percent_off_not_num r hn]
  cases hb : r.baseline with
  | none => rfl
  | some cb =>
    cases cb with
    | nan => rfl
    | bad => rfl
    | num b =>
      cases hp : r.price with
      | none => rfl
      | some cp =>
        cases cp with
        | nan => rfl
        | bad => rfl
        | num p =>
          have hc : ¬ (0 < b ∧ p ≤ b) := fun hc => hno b p ⟨hb, hp, hc.1, hc.2⟩
          exact if_neg hc

/-! ### Claims C1 and C2: the discount policy -/

/-- Claim C2 (counterexample): the claim says a numeric `pct_off_raw` is
returned as `pct_off_raw * 100` *clamped to ≥ 0*, but `get_percent_off`
performs no clamping on this path: `pct_off = -0.5` yields `-50`, not
`0`. -/
theorem c2_counterexample :
    get_percent_off negPctRow = -50 ∧ get_percent_off negPctRow < 0 := by
  have h : get_percent_off negPctRow = (-1 / 2) * 100 :=
    get_percent_off_num negPctRow rfl
  rw [h]
  norm_num

/-- Claim C2 (amended): `get_percent_off` follows the ordered policy with
*no* clamping on the first path — a present numeric `pct_off` is returned
as `pct_off * 100` as-is, regardless of price and baseline; otherwise a
numeric baseline `b > 0` with numeric price `p ≤ b` gives
`max 0 ((b - p) / b * 100)`; in all remaining cases the result is `0`. -/
theorem c2_percent_off_policy (r : CRow) :
    (∀ q : ℚ, r.pct_off = some (Cell.num q) → get_percent_off r = q * 100) ∧
    ((∀ q : ℚ, r.pct_off ≠ some (Cell.num q)) →
      ∀ b p : ℚ, r.baseline = some (Cell.num b) → r.price = some (Cell.num p) →
        0 < b → p ≤ b → get_percent_off r = max 0 ((b - p) / b * 100)) ∧
    ((∀ q : ℚ, r.pct_off ≠ some (Cell.num q)) →
      (∀ b p : ℚ, ¬ (r.baseline = some (Cell.num b) ∧ r.price = some (Cell.num p) ∧
        0 < b ∧ p ≤ b)) →
      get_percent_off r = 0) :=
  ⟨fun _ hq => get_percent_off_num r hq,
   fun hn _ _ hb hp h0 hpb => get_percent_off_fallback r hn hb hp h0 hpb,
   fun hn hno => get_percent_off_zero r hn hno⟩

theorem c2_percent_off_policy_witness :
    specPctRow.pct_off = some (Cell.num (37 / 100)) ∧
    get_percent_off specPctRow = (37 / 100) * 100 :=
  ⟨rfl, (c2_percent_off_policy specPctRow).1 (37 / 100) rfl⟩

theorem c1_aux (r : CRow) (hn : ∀ q : ℚ, r.pct_off ≠ some (Cell.num q))
    (hprice : ∀ q : ℚ, r.price = some (Cell.num q) → 0 ≤ q) :
    0 ≤ get_percent_off r ∧ get_percent_off r ≤ 100 := by
  rw [get_percent_off_not_num r hn]
  cases hb : r.baseline with
  | none => norm_num
  | some cb =>
    cases cb with
    | nan => norm_num
    | bad => norm_num
    | num b =>
      cases hp : r.price with
      | none => norm_num
      | some cp =>
        cases cp with
        | nan => norm_num
        | bad => norm_num
        | num p =>
          show (0 ≤ if 0 < b ∧ p ≤ b then max 0 ((b - p) / b * 100) else (0 : ℚ)) ∧
            (if 0 < b ∧ p ≤ b then max 0 ((b - p) / b * 100) else (0 : ℚ)) ≤ 100
          by_cases hc : 0 < b ∧ p ≤ b
          · rw [if_pos hc]
            have hple : 0 ≤ p := hprice p hp
            constructor
            · exact le_max_left 0 _
            · refine max_le (by norm_num) ?_
              rw [div_mul_eq_mul_div, div_le_iff₀ hc.1]
              nlinarith
          · rw [if_neg hc]
            norm_num

/-- Claim C1 (counterexample): a row with a coercible price and
`pct_off = -0.5` survives `main`'s price filter and is written out with
`percent_off = -50.0`, which is outside `[0, 100]`. -/
theorem c1_counterexample :
    (buildDeal negPctRow).map Deal.percent_off = some (-50) ∧ ¬ (0 : ℚ) ≤ -50 := by
  constructor
  · have h : get_percent_off negPctRow = (-1 / 2) * 100 :=
      get_percent_off_num negPctRow rfl
    show some (round1 (get_percent_off negPctRow)) = some (-50)
    rw [h]
    have h2 : ((-1 : ℚ) / 2) * 100 = ((-50 : ℤ) : ℚ) := by norm_num
    rw [h2, round1_of_intCast]
    norm_num
  · norm_num

/-- Claim C1 (amended): every output deal's `percent_off` lies in
`[0, 100]` *provided* any supplied numeric `pct_off` fraction lies in
`[0, 1]` and any numeric price is non-negative (the unclamped `pct_off`
path otherwise escapes the interval, as does the baseline branch when the
price is negative); and, as the claim's parenthetical states, a row whose
baseline lies below its price (with `pct_off` unusable) yields
`percent_off = 0`, never a negative figure. -/
theorem c1_percent_off_range (r : CRow) (d : Deal)
    (hd : buildDeal r = some d)
    (hpct : ∀ q : ℚ, r.pct_off = some (Cell.num q) → 0 ≤ q ∧ q ≤ 1)
    (hprice : ∀ q : ℚ, r.price = some (Cell.num q) → 0 ≤ q) :
    (0 ≤ d.percent_off ∧ d.percent_off ≤ 100) ∧
    ((∀ q : ℚ, r.pct_off ≠ some (Cell.num q)) →
      ∀ b p : ℚ, r.baseline = some (Cell.num b) → r.price = some (Cell.num p) →
        b < p → d.percent_off = 0) := by
  have hdp : d.percent_off = round1 (get_percent_off r) := by
    cases hpr : r.price with
    | none => rw [buildDeal, hpr] at hd; exact absurd hd (by simp)
    | some c =>
      cases c with
      | nan => rw [buildDeal, hpr] at hd; exact absurd hd (by simp)
      | bad => rw [buildDeal, hpr] at hd; exact absurd hd (by simp)
      | num p =>
        rw [buildDeal, hpr] at hd
        cases hd
        rfl
  constructor
  · have hbound : 0 ≤ get_percent_off r ∧ get_percent_off r ≤ 100 := by
      cases hpc : r.pct_off with
      | some c =>
        cases c with
        | num q =>
          obtain ⟨h0, h1⟩ := hpct q hpc
          rw [get_percent_off_num r hpc]
          constructor <;> nlinarith
        | nan =>
          exact c1_aux r (fun q h => Cell.noConfusion (Option.some.inj (hpc.symm.trans h)))
            hprice
        | bad =>
          exact c1_aux r (fun q h => Cell.noConfusion (Option.some.inj (hpc.symm.trans h)))
            hprice
      | none => exact c1_aux r (fun q h => Option.noConfusion (hpc.symm.trans h)) hprice
    rw [hdp]
    exact ⟨round1_nonneg hbound.1, round1_le_100 hbound.2⟩
  · intro hn b p hb hp hbp
    have hz : get_percent_off r = 0 := by
      refine get_percent_off_zero r hn ?_
      rintro bb pp ⟨hbb, hpp, _, hple⟩
      rw [hb] at hbb
      rw [hp] at hpp
      cases hbb
      cases hpp
      exact absurd hple (not_le.mpr hbp)
    rw [hdp, hz]
    have h0 : ((0 : ℤ) : ℚ) = (0 : ℚ) := by norm_num
    rw [← h0, round1_of_intCast, h0]

theorem c1_percent_off_range_witness :
    buildDeal fallbackRow = some fallbackDeal ∧
    (∀ q : ℚ, fallbackRow.pct_off = some (Cell.num q) → 0 ≤ q ∧ q ≤ 1) ∧
    (∀ q : ℚ, fallbackRow.price = some (Cell.num q) → 0 ≤ q) ∧
    (0 ≤ fallbackDeal.percent_off ∧ fallbackDeal.percent_off ≤ 100) := by
  have hpct : ∀ q : ℚ, fallbackRow.pct_off = some (Cell.num q) → 0 ≤ q ∧ q ≤ 1 :=
    fun q h => Option.noConfusion h
  have hprice : ∀ q : ℚ, fallbackRow.price = some (Cell.num q) → 0 ≤ q := by
    intro q h
    have h15 : Cell.num (15 : ℚ) = Cell.num q := Option.some.inj h
    have : (15 : ℚ) = q := by injection h15
    rw [← this]
    norm_num
  have h2 : get_percent_off fallbackRow = ((25 : ℤ) : ℚ) := by
    rw [get_percent_off_fallback fallbackRow (fun q h => Option.noConfusion h) rfl rfl
      (by norm_num) (by norm_num)]
    norm_num
  have hb : buildDeal fallbackRow = some fallbackDeal := by
    have hname : build_product_name fallbackRow = "Unknown product" := by decide
    have hunit : get_unit_label fallbackRow = (none, none) := rfl
    have hstreak : get_streak_days fallbackRow = none := rfl
    have hpr : fallbackRow.price = some (Cell.num 15) := rfl
    have hbl : fallbackRow.baseline = some (Cell.num 20) := rfl
    simp only [buildDeal, hpr, hbl, fallbackDeal, hname, h2, round1_of_intCast,
      hunit, hstreak, Option.some.injEq, Deal.mk.injEq]
    norm_num
    exact ⟨rfl, rfl, rfl, rfl, rfl, rfl, rfl, rfl⟩
  exact ⟨hb, hpct, hprice, (c1_percent_off_range fallbackRow fallbackDeal hb hpct hprice).1⟩

/-! ### Claims C7 and C10: the badge classifier -/

theorem get_badge_num (p : ℚ) :
    get_badge (some (PctVal.pnum p)) =
      if 25 ≤ p then ("💎 Diamond Deal", "badge badge-elite")
      else if 20 ≤ p then ("🔥 Fire Deal", "badge badge-strong")
      else if 10 ≤ p then ("💪 Strong Deal", "badge badge-protein")
      else if 0 ≤ p then ("🏷️ On Sale", "badge badge-everyday")
      else ("", "") := rfl

/-- Claim C7: `get_badge` maps a numeric `percent_off` to tiers whose
boundaries are inclusive on the lower bound — `≥ 25` elite, `[20, 25)`
strong, `[10, 20)` the mid tier, `[0, 10)` everyday, and a negative value
produces no badge (empty label and class). -/
theorem c7_badge_tiers (p : ℚ) :
    (25 ≤ p → get_badge (some (PctVal.pnum p)) = ("💎 Diamond Deal", "badge badge-elite")) ∧
    (20 ≤ p → p < 25 → get_badge (some (PctVal.pnum p)) = ("🔥 Fire Deal", "badge badge-strong")) ∧
    (10 ≤ p → p < 20 → get_badge (some (PctVal.pnum p)) = ("💪 Strong Deal", "badge badge-protein")) ∧
    (0 ≤ p → p < 10 → get_badge (some (PctVal.pnum p)) = ("🏷️ On Sale", "badge badge-everyday")) ∧
    (p < 0 → get_badge (some (PctVal.pnum p)) = ("", "")) := by
  refine ⟨?_, ?_, ?_, ?_, ?_⟩
  · intro h1
    rw [get_badge_num, if_pos h1]
  · intro h1 h2
    rw [get_badge_num, if_neg (not_le.mpr h2), if_pos h1]
  · intro h1 h2
    rw [get_badge_num, if_neg (by linarith : ¬ (25 : ℚ) ≤ p),
      if_neg (not_le.mpr h2), if_pos h1]
  · intro h1 h2
    rw [get_badge_num, if_neg (by linarith : ¬ (25 : ℚ) ≤ p),
      if_neg (by linarith : ¬ (20 : ℚ) ≤ p), if_neg (not_le.mpr h2), if_pos h1]
  · intro h1
    rw [get_badge_num, if_neg (by linarith : ¬ (25 : ℚ) ≤ p),
      if_neg (by linarith : ¬ (20 : ℚ) ≤ p), if_neg (by linarith : ¬ (10 : ℚ) ≤ p),
      if_neg (not_le.mpr h1)]

theorem c7_badge_tiers_witness :
    (10 : ℚ) ≤ 12 ∧ (12 : ℚ) < 20 ∧
    get_badge (some (PctVal.pnum 12)) = ("💪 Strong Deal", "badge badge-protein") :=
  ⟨by norm_num, by norm_num, (c7_badge_tiers 12).2.2.1 (by norm_num) (by norm_num)⟩

/-- Claim C10: when `percent_off` is absent, `null`, or not coercible to a
float, `get_badge` treats it as `0.0` and returns the non-empty everyday
badge rather than no badge; in the embedding it is a total function, so no
exception escapes. -/
theorem c10_badge_default (v : Option PctVal)
    (h : v = none ∨ v = some PctVal.pnull ∨ v = some PctVal.pbad) :
    get_badge v = ("🏷️ On Sale", "badge badge-everyday") ∧ (get_badge v).1 ≠ "" := by
  have h1 : get_badge v = ("🏷️ On Sale", "badge badge-everyday") := by
    rcases h with rfl | rfl | rfl <;> norm_num [get_badge]
  refine ⟨h1, ?_⟩
  rw [h1]
  decide

theorem c10_badge_default_witness :
    (some PctVal.pbad = (none : Option PctVal) ∨ some PctVal.pbad = some PctVal.pnull ∨
      some PctVal.pbad = some PctVal.pbad) ∧
    get_badge (some PctVal.pbad) = ("🏷️ On Sale", "badge badge-everyday") ∧
    (get_badge (some PctVal.pbad)).1 ≠ "" :=
  ⟨Or.inr (Or.inr rfl),
   (c10_badge_default _ (Or.inr (Or.inr rfl))).1,
   (c10_badge_default _ (Or.inr (Or.inr rfl))).2⟩

/-! ### Claim C9: the streak-days alias probe -/

/-- Claim C9 (counterexample): with `deal_streak_days = 0` present, the
claim says the probe stops and yields `null`, but the loop only `return`s
on `int(val) >= 1` — a value below `1` falls through, so the later alias
`streak_days = 5` wins and the code yields `5`. -/
theorem c9_counterexample :
    zeroStreakRow.deal_streak_days = some (Cell.num 0) ∧
    claim_streak_days zeroStreakRow = none ∧
    get_streak_days zeroStreakRow = some 5 := by
  have ht0 : truncQ 0 = 0 := by norm_num [truncQ]
  have ht5 : truncQ 5 = 5 := by norm_num [truncQ]
  refine ⟨rfl, ?_, ?_⟩
  · show (if 1 ≤ truncQ 0 then some (truncQ 0) else none) = (none : Option ℤ)
    rw [ht0]
    norm_num
  · show (if 1 ≤ truncQ 0 then some (truncQ 0) else
      if 1 ≤ truncQ 5 then some (truncQ 5) else streakLoop [none, none]) = some (5 : ℤ)
    rw [ht0, ht5]
    norm_num

/-- Claim C9 (amended): the aliases are probed in the fixed order
`deal_streak_days`, `streak_days`, `deal_streak`, `days_on_deal`
(case-sensitive exact names), and the first *decisive* alias determines
the result: a present missing/non-coercible value decides `null`, an int
`≥ 1` decides that int — but a present value whose int is below `1` does
*not* stop the probe; later aliases are consulted.  `null` results when no
alias is decisive. -/
theorem c9_streak_alias_policy (r : CRow) :
    get_streak_days r = amended_streak_days r := by
  have hgen : ∀ l : List (Option Cell), streakLoop l = (l.findSome? streakDecision).join := by
    intro l
    induction l with
    | nil => rfl
    | cons c rest ih =>
      cases c with
      | none => simpa [streakLoop, List.findSome?, streakDecision] using ih
      | some cell =>
        cases cell with
        | nan => rfl
        | bad => rfl
        | num q =>
          by_cases h : 1 ≤ truncQ q <;>
            simp [streakLoop, List.findSome?, streakDecision, h, ih]
  exact hgen (streakCells r)

/-! ### Claims C5 and C6: heuristic name extraction -/

theorem findSub_of_not_contains {p low : List Char} (h : containsSub p low = false) :
    findSub p low = none := by
  cases hf : findSub p low with
  | none => rfl
  | some i =>
    rw [containsSub, hf] at h
    simp at h

theorem flavorLoop_none {low part : List Char} :
    ∀ ps : List (List Char), (∀ p ∈ ps, containsSub p low = false) →
      flavorLoop ps low part = none
  | [], _ => rfl
  | p :: ps, h => by
    have hf : findSub p low = none :=
      findSub_of_not_contains (h p (List.mem_cons_self p ps))
    simp only [flavorLoop, hf]
    exact flavorLoop_none ps fun q hq => h q (List.mem_cons_of_mem p hq)

theorem baseLoop_none {low part : List Char} :
    ∀ ps : List (List Char), (∀ p ∈ ps, containsSub p low = false) →
      baseLoop ps low part = none
  | [], _ => rfl
  | p :: ps, h => by
    have hf : findSub p low = none :=
      findSub_of_not_contains (h p (List.mem_cons_self p ps))
    simp only [baseLoop, hf]
    exact baseLoop_none ps fun q hq => h q (List.mem_cons_of_mem p hq)

/-- Claim C6 (counterexample): no phrase matches `"Foo Xyz"`, and the
claim says the fallback flavor is all tokens after the first (`"Xyz"`),
but the code only does that for three or more tokens — for a two-token
name it returns the entire stripped name `"Foo Xyz"`. -/
theorem c6_counterexample :
    (product_types.all fun p => !containsSub p (toLowerL (stripPackL fooXyz))) = true ∧
    extract_flavor_from_product_name fooXyz = "Foo Xyz".data ∧
    "Foo Xyz".data ≠ "Xyz".data := by
  refine ⟨by decide, by decide, by decide⟩

/-- Claim C6 (amended): when no known product-type phrase occurs in the
pack-size-stripped, lower-cased name, the base name is the first two
whitespace-delimited tokens (the entire stripped name when there are
fewer than two) and the flavor is all tokens after the first *only when
the name has at least three tokens* — with two or fewer tokens the
entire stripped name is returned as the flavor. -/
theorem c6_no_phrase_fallback (name : List Char)
    (hno : ∀ p ∈ product_types, containsSub p (toLowerL (stripPackL name)) = false) :
    extract_base_product_name name =
      (if 2 ≤ (splitWs (stripPackL name)).length
       then joinWords ((splitWs (stripPackL name)).take 2) else stripPackL name) ∧
    extract_flavor_from_product_name name =
      (if 3 ≤ (splitWs (stripPackL name)).length
       then joinWords ((splitWs (stripPackL name)).drop 1) else stripPackL name) := by
  have hno2 : ∀ p ∈ sortedTypes, containsSub p (toLowerL (stripPackL name)) = false :=
    fun p hp => hno p ((List.perm_insertionSort _ product_types).mem_iff.mp hp)
  by_cases hn : name = []
  · subst hn
    exact ⟨by decide, by decide⟩
  · have hb : baseLoop sortedTypes (toLowerL (stripPackL name)) (stripPackL name) = none :=
      baseLoop_none _ hno2
    have hf : flavorLoop sortedTypes (toLowerL (stripPackL name)) (stripPackL name) = none :=
      flavorLoop_none _ hno2
    constructor
    · simp only [extract_base_product_name, if_neg hn, hb]
    · simp only [extract_flavor_from_product_name, if_neg hn, hf]

theorem c6_no_phrase_fallback_witness :
    (product_types.all fun p => !containsSub p (toLowerL (stripPackL "Loo Moo Noo".data))) = true ∧
    extract_base_product_name "Loo Moo Noo".data = "Loo Moo".data ∧
    extract_flavor_from_product_name "Loo Moo Noo".data = "Moo Noo".data := by
  have h := c6_no_phrase_fallback "Loo Moo Noo".data (by decide)
  refine ⟨by decide, ?_, ?_⟩
  · rw [h.1]
    decide
  · rw [h.2]
    decide

theorem findSub_decomp {p : List Char} :
    ∀ (s : List Char) {i : ℕ}, findSub p s = some i →
      ∃ pre suf, s = pre ++ p ++ suf ∧ pre.length = i := by
  intro s
  induction s with
  | nil =>
    intro i h
    by_cases hp : p = []
    · subst hp
      have h0 : (0 : ℕ) = i := by simpa [findSub] using h
      exact ⟨[], [], rfl, by simp [← h0]⟩
    · have hnone : findSub p [] = none := by simp [findSub, hp]
      rw [hnone] at h
      exact Option.noConfusion h
  | cons c cs ih =>
    intro i h
    rw [show findSub p (c :: cs) =
      if p.isPrefixOf (c :: cs) then some 0 else (findSub p cs).map (· + 1) from rfl] at h
    by_cases hpre : p.isPrefixOf (c :: cs)
    · rw [if_pos hpre, Option.some.injEq] at h
      obtain ⟨t, ht⟩ := List.isPrefixOf_iff_prefix.mp hpre
      exact ⟨[], t, by simp [← ht], by simp [← h]⟩
    · rw [if_neg hpre] at h
      cases hf : findSub p cs with
      | none =>
        rw [hf] at h
        simp at h
      | some j =>
        rw [hf] at h
        simp at h
        obtain ⟨pre, suf, hs, hl⟩ := ih hf
        exact ⟨c :: pre, suf, by simp [hs], by simp [hl, ← h]⟩

theorem trimL_ne_nil {l : List Char} {c : Char} (hc : c ∈ l)
    (hw : c.isWhitespace = false) : trimL l ≠ [] := by
  intro h
  unfold trimL at h
  rw [List.reverse_eq_nil_iff, List.dropWhile_eq_nil_iff] at h
  have hcd : c ∈ l.dropWhile Char.isWhitespace := by
    have hsplit := List.takeWhile_append_dropWhile Char.isWhitespace l
    rcases List.mem_append.mp (by rw [hsplit]; exact hc) with h1 | h2
    · have := List.mem_takeWhile_imp h1
      rw [hw] at this
      exact absurd this (by simp)
    · exact h2
  have := h c (List.mem_reverse.mpr hcd)
  rw [hw] at this
  exact absurd this (by simp)

theorem not_ws_of_toLower {c : Char} (h : (Char.toLower c).isWhitespace = false) :
    c.isWhitespace = false := by
  by_contra hc
  rw [Bool.not_eq_false] at hc
  have h4 : c = ' ' ∨ c = '\t' ∨ c = '\r' ∨ c = '\n' := by
    have h5 := hc
    simp only [Char.isWhitespace, Bool.or_eq_true, decide_eq_true_eq] at h5
    tauto
  rcases h4 with rfl | rfl | rfl | rfl <;> exact absurd h (by decide)

theorem take_slice_trim_ne_nil {part p : List Char} {i : ℕ}
    (hfind : findSub p (toLowerL part) = some i)
    (hp : p.any (fun ch => !ch.isWhitespace) = true) :
    trimL (part.take (i + p.length)) ≠ [] := by
  obtain ⟨pre, suf, hs, hl⟩ := findSub_decomp _ hfind
  have htake : (toLowerL part).take (i + p.length) = pre ++ p := by
    rw [hs, ← hl, List.append_assoc, List.take_append p.length, List.take_left]
  obtain ⟨ch, hch, hwb⟩ := List.any_eq_true.mp hp
  have hmap : toLowerL (part.take (i + p.length)) = pre ++ p := by
    rw [toLowerL, List.map_take]
    exact htake
  have hmem : ch ∈ toLowerL (part.take (i + p.length)) := by
    rw [hmap]
    exact List.mem_append_right _ hch
  obtain ⟨x, hx, hxl⟩ := List.mem_map.mp hmem
  have hxw : x.isWhitespace = false := by
    refine not_ws_of_toLower ?_
    rw [hxl]
    simpa using hwb
  exact trimL_ne_nil hx hxw

theorem sortedTypes_nonws : ∀ p ∈ sortedTypes, p.any (fun ch => !ch.isWhitespace) = true := by
  decide

theorem baseLoop_of_hit {part : List Char} :
    ∀ ps : List (List Char), (∀ p ∈ ps, p.any (fun ch => !ch.isWhitespace) = true) →
    ∀ {i l : ℕ}, firstPhraseHit ps (toLowerL part) = some (i, l) →
      baseLoop ps (toLowerL part) part = some (trimL (part.take (i + l))) := by
  intro ps
  induction ps with
  | nil =>
    intro _ i l h
    simp [firstPhraseHit] at h
  | cons p ps ih =>
    intro hps i l h
    cases hf : findSub p (toLowerL part) with
    | some j =>
      simp only [firstPhraseHit, hf, Option.some.injEq, Prod.mk.injEq] at h
      obtain ⟨rfl, rfl⟩ := h
      have hne : trimL (part.take (j + p.length)) ≠ [] :=
        take_slice_trim_ne_nil hf (hps p (List.mem_cons_self p ps))
      simp only [baseLoop, hf]
      rw [if_pos hne]
    | none =>
      simp only [firstPhraseHit, hf] at h
      simp only [baseLoop, hf]
      exact ih (fun q hq => hps q (List.mem_cons_of_mem p hq)) h

theorem flavorLoop_of_hit {part : List Char} :
    ∀ ps : List (List Char),
    ∀ {i l : ℕ}, firstPhraseHit ps (toLowerL part) = some (i, l) →
      trimL (part.drop (i + l)) ≠ [] →
      flavorLoop ps (toLowerL part) part = some (trimL (part.drop (i + l))) := by
  intro ps
  induction ps with
  | nil =>
    intro i l h
    simp [firstPhraseHit] at h
  | cons p ps ih =>
    intro i l h hne
    cases hf : findSub p (toLowerL part) with
    | some j =>
      simp only [firstPhraseHit, hf, Option.some.injEq, Prod.mk.injEq] at h
      obtain ⟨rfl, rfl⟩ := h
      simp only [flavorLoop, hf]
      rw [if_pos hne]
    | none =>
      simp only [firstPhraseHit, hf] at h
      simp only [flavorLoop, hf]
      exact ih h hne

/-- Claim C5 (counterexample): for `"Quest Protein Chips"` the first
matched phrase (longest first) is `"protein chips"` at index 6, so the
claim's "flavor = the substring after it" is the empty string; but the
flavor loop keeps searching when that substring is blank and ends in the
token fallback, returning `"Protein Chips"`. -/
theorem c5_counterexample :
    firstPhraseHit sortedTypes (toLowerL (stripPackL "Quest Protein Chips".data)) =
      some (6, 13) ∧
    trimL ((stripPackL "Quest Protein Chips".data).drop (6 + 13)) = [] ∧
    extract_flavor_from_product_name "Quest Protein Chips".data = "Protein Chips".data ∧
    "Protein Chips".data ≠ ([] : List Char) := by
  refine ⟨by decide, by decide, by decide, by decide⟩

/-- Claim C5 (amended): extraction is anchored on the known product-type
phrases tried longest first; the base name is the substring up to and
including the first matched phrase, and the flavor is the substring after
that phrase *provided it is non-blank after stripping* (when it is blank
the extractor falls back further instead of returning it); in particular
`"Quest Protein Chips Chili Lime (8ct)"` yields base name
`"Quest Protein Chips"` and flavor `"Chili Lime"`. -/
theorem c5_phrase_anchored_extraction :
    (∀ (name : List Char) (i l : ℕ),
      firstPhraseHit sortedTypes (toLowerL (stripPackL name)) = some (i, l) →
      extract_base_product_name name = trimL ((stripPackL name).take (i + l))) ∧
    (∀ (name : List Char) (i l : ℕ),
      firstPhraseHit sortedTypes (toLowerL (stripPackL name)) = some (i, l) →
      trimL ((stripPackL name).drop (i + l)) ≠ [] →
      extract_flavor_from_product_name name = trimL ((stripPackL name).drop (i + l))) ∧
    extract_base_product_name questName = "Quest Protein Chips".data ∧
    extract_flavor_from_product_name questName = "Chili Lime".data := by
  have hnil : firstPhraseHit sortedTypes (toLowerL (stripPackL ([] : List Char))) = none := by
    decide
  refine ⟨?_, ?_, by decide, by decide⟩
  · intro name i l h
    by_cases hn : name = []
    · subst hn
      rw [hnil] at h
      exact Option.noConfusion h
    · have := baseLoop_of_hit sortedTypes sortedTypes_nonws h
      simp only [extract_base_product_name, if_neg hn, this]
  · intro name i l h hne
    by_cases hn : name = []
    · subst hn
      rw [hnil] at h
      exact Option.noConfusion h
    · have := flavorLoop_of_hit sortedTypes h hne
      simp only [extract_flavor_from_product_name, if_neg hn, this]

theorem c5_phrase_anchored_extraction_witness :
    firstPhraseHit sortedTypes (toLowerL (stripPackL questName)) = some (6, 13) ∧
    trimL ((stripPackL questName).drop (6 + 13)) = "Chili Lime".data ∧
    extract_base_product_name questName = trimL ((stripPackL questName).take (6 + 13)) ∧
    extract_flavor_from_product_name questName = trimL ((stripPackL questName).drop (6 + 13)) := by
  refine ⟨by decide, by decide,
    c5_phrase_anchored_extraction.1 questName 6 13 (by decide),
    c5_phrase_anchored_extraction.2.1 questName 6 13 (by decide) (by decide)⟩

/-! ### Claim C4: rows without a coercible price are dropped silently -/

theorem buildDeal_none_of_bad_price {r : CRow}
    (h : r.price = none ∨ r.price = some Cell.bad) : buildDeal r = none := by
  rcases h with h | h <;> rw [buildDeal, h]

/-- Claim C4: a row whose price `float()`-coercion fails (absent column or
non-coercible value) contributes nothing anywhere — deleting it from the
input leaves both the builder's deal list and the grouped family list of
the page byte-identical — and, the embedding being a total function, no
error is raised; all other rows are processed exactly as before. -/
theorem c4_bad_price_dropped (pre post : List CRow) (r : CRow)
    (h : r.price = none ∨ r.price = some Cell.bad) :
    buildDeals (pre ++ r :: post) = buildDeals (pre ++ post) ∧
    pipeline_families (pre ++ r :: post) = pipeline_families (pre ++ post) := by
  have hn : buildDeal r = none := buildDeal_none_of_bad_price h
  have hb : buildDeals (pre ++ r :: post) = buildDeals (pre ++ post) := by
    unfold buildDeals
    rw [List.filterMap_append, List.filterMap_append, List.filterMap_cons, hn]
  exact ⟨hb, by unfold pipeline_families; rw [hb]⟩

theorem c4_bad_price_dropped_witness :
    (badPriceRow.price = none ∨ badPriceRow.price = some Cell.bad) ∧
    buildDeals [badPriceRow] = buildDeals [] ∧
    pipeline_families [badPriceRow] = pipeline_families [] :=
  ⟨Or.inr rfl,
   (c4_bad_price_dropped [] [] badPriceRow (Or.inr rfl)).1,
   (c4_bad_price_dropped [] [] badPriceRow (Or.inr rfl)).2⟩

/-! ### Claim C3: the grouping fold refines the specification -/

theorem mem_firstDedup {α : Type} [DecidableEq α] :
    ∀ (l : List α) (a : α), a ∈ firstDedup l ↔ a ∈ l := by
  intro l
  induction l using firstDedup.induct with
  | case1 => simp [firstDedup]
  | case2 k ks ih =>
    intro a
    rw [firstDedup]
    by_cases ha : a = k
    · subst ha
      simp
    · simp only [List.mem_cons, ih, List.mem_filter]
      constructor
      · rintro (rfl | ⟨h1, _⟩)
        · exact Or.inl rfl
        · exact Or.inr h1
      · rintro (rfl | h1)
        · exact Or.inl rfl
        · exact Or.inr ⟨h1, by simpa using ha⟩

theorem firstDedup_nodup {α : Type} [DecidableEq α] :
    ∀ l : List α, (firstDedup l).Nodup := by
  intro l
  induction l using firstDedup.induct with
  | case1 => simp [firstDedup]
  | case2 k ks ih =>
    rw [firstDedup]
    refine List.nodup_cons.mpr ⟨?_, ih⟩
    intro hk
    have := (mem_firstDedup _ k).mp hk
    simp at this

theorem firstDedup_append_singleton {α : Type} [DecidableEq α] :
    ∀ (l : List α) (k : α),
      firstDedup (l ++ [k]) =
        if k ∈ l then firstDedup l else firstDedup l ++ [k] := by
  intro l
  induction l using firstDedup.induct with
  | case1 =>
    intro k
    simp [firstDedup]
  | case2 a l ih =>
    intro k
    by_cases hk : k = a
    · subst hk
      rw [if_pos (List.mem_cons_self k l)]
      rw [List.cons_append, firstDedup, firstDedup]
      congr 1
      rw [List.filter_append]
      simp
    · rw [List.cons_append, firstDedup]
      have hfa : ([k].filter fun x => x ≠ a) = [k] := by simp [hk]
      rw [List.filter_append, hfa, ih k]
      by_cases hkl : k ∈ l
      · rw [if_pos (by simp [List.mem_filter, hkl, hk]), if_pos (by simp [hkl])]
        rw [firstDedup]
      · rw [if_neg (by simp [List.mem_filter, hkl]), if_neg (by simp [hkl, hk])]
        rw [firstDedup, List.cons_append]

theorem findA_map (f : GKey → GAcc) :
    ∀ (l : List GKey) (k : GKey),
      findA (l.map fun x => (x, f x)) k = if k ∈ l then some (f k) else none := by
  intro l
  induction l with
  | nil => intro k; simp [findA]
  | cons a l ih =>
    intro k
    rw [List.map_cons, findA]
    by_cases ha : a = k
    · subst ha
      rw [if_pos rfl, if_pos (List.mem_cons_self a l)]
    · rw [if_neg ha, ih k]
      by_cases hkl : k ∈ l
      · rw [if_pos hkl, if_pos (List.mem_cons_of_mem a hkl)]
      · rw [if_neg hkl, if_neg (by
          simp only [List.mem_cons, not_or]
          exact ⟨fun h => ha h.symm, hkl⟩)]

theorem updateA_map (f : GKey → GAcc) (k : GKey) (v : GAcc) :
    ∀ l : List GKey, l.Nodup →
      updateA (l.map fun x => (x, f x)) k v =
        l.map fun x => (x, if x = k then v else f x) := by
  intro l
  induction l with
  | nil => intro _; rfl
  | cons a l ih =>
    intro hnd
    obtain ⟨hal, hnd⟩ := List.nodup_cons.mp hnd
    rw [List.map_cons, updateA, List.map_cons]
    by_cases ha : a = k
    · subst ha
      rw [if_pos rfl, if_pos rfl]
      congr 1
      refine (List.map_congr_left fun x hx => ?_).symm
      rw [if_neg]
      intro hxk
      exact hal (hxk ▸ hx)
    · rw [if_neg ha, if_neg ha, ih hnd]

theorem specFam_append (rs : List PRow) (r : PRow) (h : rs ≠ []) :
    specFam (rs ++ [r]) = appendFlavor (specFam rs) r := by
  unfold specFam appendFlavor
  cases rs with
  | nil => exact absurd rfl h
  | cons a l =>
    simp [List.foldl_append]

theorem groupStep_specAssoc (p : List PRow) (r : PRow) :
    groupStep (specAssoc p) r = specAssoc (p ++ [r]) := by
  have hfind : findA (specAssoc p) (groupKey r) =
      if groupKey r ∈ firstDedup (p.map groupKey)
      then some (specFam (p.filter fun rr => groupKey rr = groupKey r))
      else none :=
    findA_map _ _ _
  have hfilter_ne : ∀ x : GKey, groupKey r ≠ x →
      ((p ++ [r]).filter fun rr => groupKey rr = x) =
        p.filter fun rr => groupKey rr = x := by
    intro x hx
    rw [List.filter_append]
    have h0 : ([r].filter fun rr => groupKey rr = x) = [] := by
      simp [List.filter, hx]
    rw [h0, List.append_nil]
  have hfilter_eq :
      ((p ++ [r]).filter fun rr => groupKey rr = groupKey r) =
        (p.filter fun rr => groupKey rr = groupKey r) ++ [r] := by
    rw [List.filter_append]
    congr 1
    simp [List.filter]
  have hassoc : specAssoc (p ++ [r]) =
      (firstDedup ((p.map groupKey) ++ [groupKey r])).map fun k =>
        (k, specFam ((p ++ [r]).filter fun rr => groupKey rr = k)) := by
    rw [specAssoc, List.map_append]
    rfl
  unfold groupStep
  show (match findA (specAssoc p) (groupKey r) with
    | none => specAssoc p ++ [(groupKey r, appendFlavor { rep := r, flavor_data := [] } r)]
    | some g => updateA (specAssoc p) (groupKey r) (appendFlavor g r)) =
    specAssoc (p ++ [r])
  rw [hfind]
  by_cases hmem : groupKey r ∈ firstDedup (p.map groupKey)
  · rw [if_pos hmem]
    have hmem' : groupKey r ∈ p.map groupKey := (mem_firstDedup _ _).mp hmem
    show updateA (specAssoc p) (groupKey r)
        (appendFlavor (specFam (p.filter fun rr => groupKey rr = groupKey r)) r) =
      specAssoc (p ++ [r])
    have hne : (p.filter fun rr => groupKey rr = groupKey r) ≠ [] := by
      obtain ⟨r0, hr0, hkey⟩ := List.mem_map.mp hmem'
      have hr0f : r0 ∈ p.filter fun rr => groupKey rr = groupKey r :=
        List.mem_filter.mpr ⟨hr0, by simp [hkey]⟩
      exact List.ne_nil_of_mem hr0f
    rw [specAssoc, updateA_map _ _ _ _ (firstDedup_nodup _), hassoc,
      firstDedup_append_singleton _ _, if_pos hmem']
    refine (List.map_congr_left fun x hx => ?_).symm
    by_cases hxk : x = groupKey r
    · subst hxk
      rw [if_pos rfl, hfilter_eq, specFam_append _ _ hne]
    · rw [if_neg hxk, hfilter_ne x fun h => hxk h.symm]
  · rw [if_neg hmem]
    have hmem' : groupKey r ∉ p.map groupKey := fun h => hmem ((mem_firstDedup _ _).mpr h)
    show specAssoc p ++ [(groupKey r, appendFlavor ⟨r, []⟩ r)] = specAssoc (p ++ [r])
    have hempty : (p.filter fun rr => groupKey rr = groupKey r) = [] := by
      rw [List.filter_eq_nil_iff]
      intro a ha
      simp only [decide_eq_true_eq]
      intro hkey
      exact hmem' (List.mem_map.mpr ⟨a, ha, hkey⟩)
    rw [hassoc, firstDedup_append_singleton _ _, if_neg hmem', List.map_append]
    congr 1
    · rw [specAssoc]
      refine List.map_congr_left fun x hx => ?_
      have hxk : x ≠ groupKey r := by
        intro h
        subst h
        exact hmem' ((mem_firstDedup _ _).mp hx)
      rw [hfilter_ne x fun h => hxk h.symm]
    · rw [List.map_cons, List.map_nil, hfilter_eq, hempty]
      rfl

theorem foldl_groupStep_eq (p : List PRow) : p.foldl groupStep [] = specAssoc p := by
  induction p using List.reverseRecOn with
  | nil => simp [specAssoc, firstDedup]
  | append_singleton p r ih =>
    rw [List.foldl_append, List.foldl_cons, List.foldl_nil, ih]
    exact groupStep_specAssoc p r

theorem source_finalize_eq_spec (g : GAcc) : source_finalize g = spec_finalize g := by
  unfold source_finalize spec_finalize
  by_cases h : g.flavor_data = []
  · simp [h, sortFlavors]
  · simp only [if_neg h]
    have hdrop : (if 2 < (sortFlavors g.flavor_data).length
        then (sortFlavors g.flavor_data).drop 2 else []) =
        (sortFlavors g.flavor_data).drop 2 := by
      by_cases h2 : 2 < (sortFlavors g.flavor_data).length
      · rw [if_pos h2]
      · rw [if_neg h2, List.drop_eq_nil_of_le (by omega)]
    rw [hdrop]
    have hlen : (sortFlavors g.flavor_data).length = g.flavor_data.length :=
      List.length_insertionSort flavorLe g.flavor_data
    simp only [Family.mk.injEq, and_true, true_and]
    refine ⟨hlen.symm, ?_⟩
    rw [List.length_take, List.length_drop]
    push_cast [Nat.min_def]
    by_cases h3 : 2 ≤ (sortFlavors g.flavor_data).length
    · rw [if_pos h3]
      omega
    · rw [if_neg h3]
      omega

/-- Claim C3: `group_deals` folds every set of rows sharing one composite
key into exactly one family, exactly as the spec describes it — the
first-seen row is the representative, each row's `(flavor, url)` pair is
appended under the stated guard, and each family is finalized by the
case-insensitive sort and 2-element sample split (`spec_group_deals` is
the spec text turned into a definition; the first conjunct is the full
refinement, the second the spec's Cherry/Vanilla/cherry example). -/
theorem c3_group_deals_refines_spec :
    (∀ rows : List PRow, group_deals rows = spec_group_deals rows) ∧
    group_deals [cherryRow, vanillaRow, cherryDupRow] = [cherryFamily] := by
  constructor
  · intro rows
    unfold group_deals spec_group_deals
    rw [foldl_groupStep_eq, specAssoc, List.map_map]
    refine List.map_congr_left fun k _ => ?_
    simp only [Function.comp]
    exact source_finalize_eq_spec _
  · decide

/-! ### Claim C8: the default display order -/

theorem filter_orderedInsert (k : SKey) (a : Family) (l : List Family) :
    (l.orderedInsert sortLe a).filter (fun f => sort_key f = k) =
      if sort_key a = k then a :: l.filter (fun f => sort_key f = k)
      else l.filter (fun f => sort_key f = k) := by
  induction l with
  | nil =>
    by_cases ha : sort_key a = k
    · simp [List.orderedInsert, List.filter_cons, ha]
    · simp [List.orderedInsert, List.filter_cons, ha]
  | cons b l ih =>
    rw [List.orderedInsert]
    by_cases hr : sortLe a b
    · rw [if_pos hr]
      by_cases ha : sort_key a = k
      · simp [List.filter_cons, ha]
      · simp [List.filter_cons, ha]
    · rw [if_neg hr]
      by_cases ha : sort_key a = k
      · have hb : ¬ sort_key b = k := by
          intro hbk
          exact hr (le_of_eq (ha.trans hbk.symm))
        simp [List.filter_cons, hb, ih, ha]
      · simp [List.filter_cons, ih, ha]

theorem filter_sort_deals (k : SKey) (l : List Family) :
    (sort_deals l).filter (fun f => sort_key f = k) =
      l.filter (fun f => sort_key f = k) := by
  unfold sort_deals
  induction l with
  | nil => rfl
  | cons a l ih =>
    rw [List.insertionSort, filter_orderedInsert]
    by_cases ha : sort_key a = k
    · rw [if_pos ha, ih, List.filter_cons, if_pos (by simp [ha])]
    · rw [if_neg ha, ih, List.filter_cons, if_neg (by simp [ha])]

theorem sortLe_iff_displayLe (a b : Family) : sortLe a b ↔ displayLe a b := by
  unfold sortLe sort_key displayLe
  simp only [Prod.Lex.le_iff, neg_lt_neg_iff, neg_inj]

/-- Claim C8: the default display order sorts ascending by retailer
(case-insensitive), then ascending by category (case-insensitive), then
descending by `percent_off`, then ascending by price; the result is a
permutation of the input; and the sort is stable — the families carrying
any fixed sort key appear in the output in exactly their input order. -/
theorem c8_default_display_order (fams : List Family) :
    (sort_deals fams).Pairwise displayLe ∧
    (sort_deals fams).Perm fams ∧
    ∀ k : SKey, (sort_deals fams).filter (fun f => sort_key f = k) =
      fams.filter (fun f => sort_key f = k) := by
  refine ⟨?_, List.perm_insertionSort _ _, fun k => filter_sort_deals k fams⟩
  have hs : (sort_deals fams).Pairwise sortLe := List.sorted_insertionSort sortLe fams
  exact hs.imp fun h => (sortLe_iff_displayLe _ _).mp h
